import Mathlib

set_option maxRecDepth 1000000

/-!
Verification development for the `ddp` peer-to-peer distribution node.

The Rust sources under `src/` are shallowly embedded below:

* bytes (Rust `u8`) and sizes (Rust `usize`) are modelled as `Nat`,
  with `% 256` / `% 2^32` made explicit where the machine width matters;
* the external SHA-256 primitive (the `sha2` crate) is given a full
  executable definition (`DDP.sha256`) following FIPS 180-4, operating on
  byte lists; the incremental `Sha256` object of the crate hashes the
  concatenation of all its `input` calls, which the embedding mirrors by
  accumulating the input bytes and hashing once;
* fallible / process-exiting code paths return `Except` or `Option`;
* Rust's stable `sort_by` is modelled by a stable insertion sort
  (`DDP.stableSort`); for the total preorders used by the sources a stable
  sort's output is unique, so the two agree.
-/

namespace DDP

/-! ## SHA-256 (external primitive, FIPS 180-4) -/

/-- Modulus for 32-bit words. -/
def w32 : Nat := 4294967296

/-- Right rotation of a 32-bit word (input assumed `< 2^32`, amount in `[1,31]`). -/
def rotr32 (n x : Nat) : Nat := ((x >>> n) ||| (x <<< (32 - n))) % w32

/-- Big-endian byte expansion: `beBytes k v` is the `k` bytes of `v`, most significant first. -/
def beBytes : Nat → Nat → List Nat
  | 0, _ => []
  | k + 1, v => beBytes k (v >>> 8) ++ [v % 256]

/-- Length of a list with a stepwise-forced accumulator (equal to `List.length`; the
`0 / m+1` match keeps the accumulator a numeral so that kernel reduction stays shallow). -/
def listLen (n : Nat) : List Nat → Nat
  | [] => n
  | _ :: t =>
    match n + 1 with
    | 0 => listLen 0 t
    | m + 1 => listLen (m + 1) t

theorem listLen_eq (l : List Nat) : ∀ n, listLen n l = n + l.length := by
  induction l with
  | nil => simp [listLen]
  | cons x t ih => intro n; simp [listLen, ih]; omega

/-- SHA-256 message padding: `0x80`, zeros, then the bit length in 8 big-endian bytes. -/
def sha256pad (msg : List Nat) : List Nat :=
  msg ++ [128] ++ List.replicate ((64 - (listLen 0 msg + 9) % 64) % 64) 0 ++
    beBytes 8 (8 * listLen 0 msg)

/-- Pack bytes into big-endian 32-bit words (the padded message length is a multiple of 4). -/
def toWords : List Nat → List Nat
  | b0 :: b1 :: b2 :: b3 :: rest =>
    (((b0 * 256 + b1) * 256 + b2) * 256 + b3) :: toWords rest
  | _ => []

/-- Split a word list into 16-word chunks (the padded length is a multiple of 16 words). -/
def group16 : List Nat → List (List Nat)
  | a0 :: a1 :: a2 :: a3 :: a4 :: a5 :: a6 :: a7 ::
    a8 :: a9 :: a10 :: a11 :: a12 :: a13 :: a14 :: a15 :: rest =>
    [a0, a1, a2, a3, a4, a5, a6, a7, a8, a9, a10, a11, a12, a13, a14, a15] :: group16 rest
  | _ => []

/-- Message-schedule extension: append `fuel` further words to the 16 chunk words. -/
def schedule : Nat → List Nat → List Nat
  | 0, ws => ws
  | fuel + 1, ws =>
    let i := ws.length
    let x := ws.getD (i - 15) 0
    let y := ws.getD (i - 2) 0
    let s0 := (rotr32 7 x) ^^^ (rotr32 18 x) ^^^ (x >>> 3)
    let s1 := (rotr32 17 y) ^^^ (rotr32 19 y) ^^^ (y >>> 10)
    schedule fuel (ws ++ [(ws.getD (i - 16) 0 + s0 + ws.getD (i - 7) 0 + s1) % w32])

/-- The eight 32-bit working variables of the SHA-256 compression function. -/
structure Sha256State where
  a : Nat
  b : Nat
  c : Nat
  d : Nat
  e : Nat
  f : Nat
  g : Nat
  h : Nat
deriving DecidableEq, Repr

/-- SHA-256 round constants. -/
def shaK : List Nat :=
  [1116352408, 1899447441, 3049323471, 3921009573, 961987163, 1508970993, 2453635748,
   2870763221, 3624381080, 310598401, 607225278, 1426881987, 1925078388, 2162078206,
   2614888103, 3248222580, 3835390401, 4022224774, 264347078, 604807628, 770255983,
   1249150122, 1555081692, 1996064986, 2554220882, 2821834349, 2952996808, 3210313671,
   3336571891, 3584528711, 113926993, 338241895, 666307205, 773529912, 1294757372,
   1396182291, 1695183700, 1986661051, 2177026350, 2456956037, 2730485921, 2820302411,
   3259730800, 3345764771, 3516065817, 3600352804, 4094571909, 275423344, 430227734,
   506948616, 659060556, 883997877, 958139571, 1322822218, 1537002063, 1747873779,
   1955562222, 2024104815, 2227730452, 2361852424, 2428436474, 2756734187, 3204031479,
   3329325298]

/-- SHA-256 initial hash value. -/
def shaH0 : Sha256State :=
  ⟨1779033703, 3144134277, 1013904242, 2773480762, 1359893119, 2600822924, 528734635,
   1541459225⟩

/-- One SHA-256 compression round, consuming a `(constant, scheduled word)` pair. -/
def sha256Round (st : Sha256State) (kw : Nat × Nat) : Sha256State :=
  let s1 := (rotr32 6 st.e) ^^^ (rotr32 11 st.e) ^^^ (rotr32 25 st.e)
  let ch := (st.e &&& st.f) ^^^ ((st.e ^^^ 4294967295) &&& st.g)
  let t1 := (st.h + s1 + ch + kw.1 + kw.2) % w32
  let s0 := (rotr32 2 st.a) ^^^ (rotr32 13 st.a) ^^^ (rotr32 22 st.a)
  let maj := (st.a &&& st.b) ^^^ (st.a &&& st.c) ^^^ (st.b &&& st.c)
  let t2 := (s0 + maj) % w32
  ⟨(t1 + t2) % w32, st.a, st.b, st.c, (st.d + t1) % w32, st.e, st.f, st.g⟩

/-- Process one 16-word chunk: run the 64 rounds and add the result back in. -/
def compressChunk (st : Sha256State) (chunk : List Nat) : Sha256State :=
  let r := (shaK.zip (schedule 48 chunk)).foldl sha256Round st
  ⟨(st.a + r.a) % w32, (st.b + r.b) % w32, (st.c + r.c) % w32, (st.d + r.d) % w32,
   (st.e + r.e) % w32, (st.f + r.f) % w32, (st.g + r.g) % w32, (st.h + r.h) % w32⟩

/-- Pack the eight state words into a single natural number. -/
def packState (st : Sha256State) : Nat :=
  ((((((st.a * w32 + st.b) * w32 + st.c) * w32 + st.d) * w32 + st.e) * w32 + st.f) * w32 +
    st.g) * w32 + st.h

/-- Inverse of `packState` on packed states. -/
def unpackState (n : Nat) : Sha256State :=
  ⟨n / w32 ^ 7 % w32, n / w32 ^ 6 % w32, n / w32 ^ 5 % w32, n / w32 ^ 4 % w32,
   n / w32 ^ 3 % w32, n / w32 ^ 2 % w32, n / w32 % w32, n % w32⟩

/-- Iterate the compression function over the chunks.  The state is carried packed, and the
`0 / m+1` match forces it to a numeral between chunks, which keeps kernel reduction of
concrete hashes shallow; both branches continue identically, so the function is plainly the
fold of `compressChunk`. -/
def compressChunks (p : Nat) : List (List Nat) → Nat
  | [] => p
  | chunk :: rest =>
    match packState (compressChunk (unpackState p) chunk) with
    | 0 => compressChunks 0 rest
    | m + 1 => compressChunks (m + 1) rest

/-- SHA-256 of a byte list, as the list of the 32 digest bytes. -/
def sha256 (msg : List Nat) : List Nat :=
  let st := unpackState
    (compressChunks (packState shaH0) (group16 (toWords (sha256pad msg))))
  beBytes 4 st.a ++ beBytes 4 st.b ++ beBytes 4 st.c ++ beBytes 4 st.d ++
    beBytes 4 st.e ++ beBytes 4 st.f ++ beBytes 4 st.g ++ beBytes 4 st.h

example : sha256 [] =
    [227, 176, 196, 66, 152, 252, 28, 20, 154, 251, 244, 200, 153, 111, 185, 36, 39, 174,
     65, 228, 100, 155, 147, 76, 164, 149, 153, 27, 120, 82, 184, 85] := by decide

example : sha256 [0] =
    [110, 52, 11, 156, 255, 179, 122, 152, 156, 165, 68, 230, 187, 120, 10, 44, 120, 144,
     29, 63, 179, 55, 56, 118, 133, 17, 163, 6, 23, 175, 160, 29] := by decide

example : sha256 [97, 98, 99] =
    [186, 120, 22, 191, 143, 1, 207, 234, 65, 65, 64, 222, 93, 174, 34, 35, 176, 3, 97,
     163, 150, 23, 122, 156, 180, 16, 255, 97, 242, 0, 21, 173] := by decide

/-! ## Block geometry (`src/helpers.rs`, `calculate_block_size`) -/

/-- Loop of `calculate_block_size` (helpers.rs:19-23):
`while block_size < 1000000 && total_size / block_size > 1000 { block_size += 1 }`.
The fuel argument makes the recursion structural; `1000000` units of fuel are enough,
since the guard forces `block_size < 1000000`. -/
def block_size_loop (total_size block_size : Nat) : Nat → Nat
  | 0 => block_size
  | fuel + 1 =>
    if block_size < 1000000 ∧ 1000 < total_size / block_size then
      block_size_loop total_size (block_size + 1) fuel
    else block_size

/-- helpers.rs:18-26: run the loop from `2` and return `block_size - 1`. -/
def calculate_block_size (total_size : Nat) : Nat :=
  block_size_loop total_size 2 1000000 - 1

example : calculate_block_size 4096 = 4 := by decide
example : calculate_block_size 0 = 1 := by decide
example : calculate_block_size 2003 = 2 := by decide

/-- The loop exits at the least block size at or above the start that fails the guard,
and every block size strictly between start and exit satisfies the guard. -/
theorem block_size_loop_spec (n : Nat) : ∀ fuel b, 1000000 ≤ b + fuel →
    b ≤ block_size_loop n b fuel ∧
    ¬(block_size_loop n b fuel < 1000000 ∧ 1000 < n / block_size_loop n b fuel) ∧
    ∀ c, b ≤ c → c < block_size_loop n b fuel → c < 1000000 ∧ 1000 < n / c := by
  intro fuel
  induction fuel with
  | zero =>
    intro b hb
    simp only [block_size_loop]
    exact ⟨Nat.le_refl b, fun h => absurd h.1 (by omega), fun c hc1 hc2 => absurd hc2 (by omega)⟩
  | succ fuel ih =>
    intro b hb
    by_cases hg : b < 1000000 ∧ 1000 < n / b
    · have hrec := ih (b + 1) (by omega)
      simp only [block_size_loop, if_pos hg]
      refine ⟨by omega, hrec.2.1, fun c hc1 hc2 => ?_⟩
      rcases Nat.eq_or_lt_of_le hc1 with hceq | hclt
      · exact hceq ▸ hg
      · exact hrec.2.2 c (by omega) hc2
    · simp only [block_size_loop, if_neg hg]
      exact ⟨Nat.le_refl b, hg, fun c hc1 hc2 => absurd hc2 (by omega)⟩

/-- C1, amended: for every file size `n`, `calculate_block_size n + 1` (not the function
value itself) is the smallest integer `b`, starting from 2, such that `b ≥ 1_000_000` or
`n / b ≤ 1000`; the function returns one less than that, so its result is never less
than 1 (but it is 1, not 2, for all `n ≤ 2001`). -/
theorem C1_amended : ∀ n : Nat,
    1 ≤ calculate_block_size n ∧
    2 ≤ calculate_block_size n + 1 ∧
    (1000000 ≤ calculate_block_size n + 1 ∨ n / (calculate_block_size n + 1) ≤ 1000) ∧
    ∀ c, 2 ≤ c → (1000000 ≤ c ∨ n / c ≤ 1000) → calculate_block_size n + 1 ≤ c := by
  intro n
  obtain ⟨hle, hexit, hbelow⟩ := block_size_loop_spec n 1000000 2 (by omega)
  have hr : calculate_block_size n + 1 = block_size_loop n 2 1000000 := by
    unfold calculate_block_size; omega
  refine ⟨by omega, by omega, ?_, ?_⟩
  · rw [hr]; omega
  · intro c hc2 hcexit
    rw [hr]
    by_contra hcon
    have := hbelow c hc2 (by omega)
    omega

/-- C1, counterexample: `calculate_block_size 4096 = 4`, yet `b = 4` does not even satisfy
`b ≥ 1_000_000 ∨ 4096 / b ≤ 1000` (the smallest such `b` is 5), so the function does not
return the claimed smallest integer; and `calculate_block_size 0 = 1 < 2`, refuting the
claim that the result is never less than 2. -/
theorem C1_counterexample :
    calculate_block_size 4096 = 4 ∧ ¬(1000000 ≤ 4 ∨ 4096 / 4 ≤ 1000) ∧
    calculate_block_size 0 = 1 ∧ calculate_block_size 0 < 2 := by decide

/-! ## File model (`src/file.rs`)

`local_path` and the progress bar are omitted: no claim concerns them.  The incremental
`Sha256` hashers are modelled by accumulating the bytes fed to them (`hash.input` calls)
and hashing the accumulated list once, which is exactly what the crate computes. -/

/-- file.rs:19-28. `hash.0` is the whole-file hash, `hash.1` the per-block hashes. -/
structure FileMetadata where
  hash : List Nat × List (List Nat)
  size : Nat
deriving DecidableEq, Repr

/-- file.rs:30-35 (without `local_path`). `blocks` pairs a block id with the number of
peers currently downloading it. -/
structure File where
  metadata : FileMetadata
  blocks : List (Nat × Nat)
deriving DecidableEq, Repr

/-- Byte loop of `File::prepare` (file.rs:52-73): on each byte, if the index is a block
boundary and the current block is nonempty, the block is hashed into `block_hashes` and fed
to the whole-file hasher, then the byte starts a new block; otherwise the byte joins the
current block.  After the loop (file.rs:74-78) the leftover `block` is fed to the
whole-file hasher only — it is never pushed to `block_hashes`.  Returns
`(block_hashes, bytes fed to the whole-file hasher)`. -/
def prepare_loop (block_size id : Nat) (block_hashes : List (List Nat))
    (hash_input block : List Nat) : List Nat → List (List Nat) × List Nat
  | [] => (block_hashes, hash_input ++ block)
  | byte :: rest =>
    if id % block_size = 0 ∧ 0 < block.length then
      prepare_loop block_size (id + 1) (block_hashes ++ [sha256 block]) (hash_input ++ block)
        [byte] rest
    else
      prepare_loop block_size (id + 1) block_hashes hash_input (block ++ [byte]) rest

/-- file.rs:38-91, `File::prepare` on the file's byte contents (`listLen 0 bytes` is the
file size; see `listLen_eq`). -/
def File.prepare (bytes : List Nat) : File :=
  let size := listLen 0 bytes
  let block_size := calculate_block_size size
  let res := prepare_loop block_size 0 [] [] [] bytes
  { metadata := { hash := (sha256 res.2, res.1), size := size },
    blocks := (List.range res.1.length).map (fun i => (i, 0)) }

/-- The bytes fed to the whole-file hasher are exactly all bytes of the file. -/
theorem prepare_loop_snd (block_size : Nat) :
    ∀ (l : List Nat) (id : Nat) (block_hashes : List (List Nat)) (hash_input block : List Nat),
      (prepare_loop block_size id block_hashes hash_input block l).2 =
        hash_input ++ block ++ l := by
  intro l
  induction l with
  | nil => intro id bh acc block; simp [prepare_loop]
  | cons byte rest ih =>
    intro id bh acc block
    by_cases hg : id % block_size = 0 ∧ 0 < block.length
    · simp only [prepare_loop, if_pos hg, ih]
      simp
    · simp only [prepare_loop, if_neg hg, ih]
      simp

/-- C2, amended: the whole-file hash computed by `File::prepare` is the SHA-256 of the
entire file contents — every byte, the trailing bytes included (the final leftover block is
fed to the whole-file hasher at file.rs:76). -/
theorem C2_amended : ∀ bytes : List Nat,
    (File.prepare bytes).metadata.hash.fst = sha256 bytes := by
  intro bytes
  simp [File.prepare, prepare_loop_snd]

/-- C2, counterexample: for the 2003-byte all-zero file the block size is 2, so the final
`2003 mod 2 = 1` trailing byte exists, the concatenation of the full blocks is the first
2002 bytes, and the whole-file hash differs from the SHA-256 of those full blocks: the
trailing byte does contribute. -/
theorem C2_counterexample :
    (File.prepare (List.replicate 2003 0)).metadata.hash.fst ≠
      sha256 (List.replicate 2002 0) ∧
    calculate_block_size 2003 = 2 ∧ 2003 % 2 = 1 := by decide

/-- C3, evaluation at the failing input: a 1-byte file has block size 1, hence one full
block and `size / block_size = 1`, yet `File::prepare` produces no block hash at all (the
final full block is never flushed into `block_hashes`, file.rs:74). -/
theorem C3_evaluation :
    (File.prepare [0]).metadata.hash.snd.length = 0 ∧
    (File.prepare [0]).metadata.size = 1 ∧
    calculate_block_size 1 = 1 ∧ (1 : Nat) / 1 = 1 := by decide

example : (File.prepare [0, 1, 2, 3, 4]).metadata.hash.snd =
    [sha256 [0], sha256 [1], sha256 [2], sha256 [3]] := by decide

example : (File.prepare [0, 1, 2, 3, 4]).blocks = [(0, 0), (1, 0), (2, 0), (3, 0)] := by decide

/-! ## Stable sorting

Rust's `Vec::sort_by` is a stable sort and all comparators used by the sources are total
preorders, for which the stably-sorted result is unique; the stable insertion sort below
therefore computes exactly what `sort_by` computes. -/

/-- Insert `x` after every element `y` with `le y x` (so after all elements equal to `x`:
stability) and before the first strictly greater element. -/
def stableInsert (le : α → α → Bool) (x : α) : List α → List α
  | [] => [x]
  | y :: ys => if le y x then y :: stableInsert le x ys else x :: y :: ys

/-- Stable insertion sort with respect to the boolean relation `le`. -/
def stableSort (le : α → α → Bool) (l : List α) : List α :=
  l.foldl (fun acc x => stableInsert le x acc) []

/-- Rust's `Ordering`-valued comparison lifted to a boolean "not greater" relation:
`sort_by(cmp)` sorts so that consecutive elements never compare `Greater`. -/
def cmpLE (cmp : α → α → Ordering) (a b : α) : Bool := decide (cmp a b ≠ Ordering.gt)

theorem mem_stableInsert (le : α → α → Bool) (x : α) :
    ∀ l a, a ∈ stableInsert le x l ↔ a = x ∨ a ∈ l := by
  intro l
  induction l with
  | nil => simp [stableInsert]
  | cons y ys ih =>
    intro a
    by_cases hle : le y x = true
    · simp only [stableInsert, if_pos hle, List.mem_cons, ih]
      tauto
    · simp only [stableInsert, if_neg hle, List.mem_cons]

theorem stableInsert_perm (le : α → α → Bool) (x : α) :
    ∀ l, (stableInsert le x l).Perm (x :: l) := by
  intro l
  induction l with
  | nil => exact List.Perm.refl _
  | cons y ys ih =>
    by_cases hle : le y x = true
    · simp only [stableInsert, if_pos hle]
      exact (ih.cons y).trans (List.Perm.swap x y ys)
    · simp only [stableInsert, if_neg hle]
      exact List.Perm.refl _

theorem stableSort_perm (le : α → α → Bool) (l : List α) : (stableSort le l).Perm l := by
  suffices h : ∀ (l acc : List α),
      (l.foldl (fun acc x => stableInsert le x acc) acc).Perm (acc ++ l) by
    simpa using h l []
  intro l
  induction l with
  | nil => simp
  | cons x xs ih =>
    intro acc
    simp only [List.foldl_cons]
    have h1 := ih (stableInsert le x acc)
    have h2 : ((stableInsert le x acc) ++ xs).Perm ((x :: acc) ++ xs) :=
      (stableInsert_perm le x acc).append_right xs
    have h3 : ((x :: acc) ++ xs).Perm (acc ++ x :: xs) := List.perm_middle.symm
    exact (h1.trans h2).trans h3

theorem pairwise_stableInsert (le : α → α → Bool)
    (htot : ∀ a b, le a b = true ∨ le b a = true)
    (htrans : ∀ a b c, le a b = true → le b c = true → le a c = true) (x : α) :
    ∀ l, l.Pairwise (fun a b => le a b = true) →
      (stableInsert le x l).Pairwise (fun a b => le a b = true) := by
  intro l
  induction l with
  | nil => simp [stableInsert]
  | cons y ys ih =>
    intro h
    rw [List.pairwise_cons] at h
    by_cases hle : le y x = true
    · simp only [stableInsert, if_pos hle]
      rw [List.pairwise_cons]
      refine ⟨fun z hz => ?_, ih h.2⟩
      rcases (mem_stableInsert le x ys z).mp hz with hzx | hzys
      · exact hzx ▸ hle
      · exact h.1 z hzys
    · simp only [stableInsert, if_neg hle]
      rw [List.pairwise_cons]
      have hxy : le x y = true := by
        rcases htot x y with h' | h'
        · exact h'
        · exact absurd h' hle
      refine ⟨fun z hz => ?_, List.pairwise_cons.mpr h⟩
      rcases List.mem_cons.mp hz with hzy | hzys
      · exact hzy ▸ hxy
      · exact htrans x y z hxy (h.1 z hzys)

theorem pairwise_stableSort (le : α → α → Bool)
    (htot : ∀ a b, le a b = true ∨ le b a = true)
    (htrans : ∀ a b c, le a b = true → le b c = true → le a c = true) (l : List α) :
    (stableSort le l).Pairwise (fun a b => le a b = true) := by
  suffices h : ∀ (l acc : List α), acc.Pairwise (fun a b => le a b = true) →
      (l.foldl (fun acc x => stableInsert le x acc) acc).Pairwise
        (fun a b => le a b = true) by
    exact h l [] (by simp)
  intro l
  induction l with
  | nil => intro acc hacc; simpa using hacc
  | cons x xs ih =>
    intro acc hacc
    exact ih (stableInsert le x acc) (pairwise_stableInsert le htot htrans x acc hacc)

/-! ## Comparators used by the sources -/

/-- Rust `usize::cmp`. -/
def natCmp (a b : Nat) : Ordering := if a < b then .lt else if b < a then .gt else .eq

/-- Rust `Option<T>::cmp` for the derived order on `Option<Duration>`: `None` is the least
element, i.e. `None < Some d` for every `d`. -/
def optCmp : Option Nat → Option Nat → Ordering
  | none, none => .eq
  | none, some _ => .lt
  | some _, none => .gt
  | some a, some b => natCmp a b

theorem natCmp_ne_gt_iff (a b : Nat) : natCmp a b ≠ Ordering.gt ↔ a ≤ b := by
  unfold natCmp
  split_ifs <;> simp <;> omega

theorem natCmp_eq_eq_iff (a b : Nat) : natCmp a b = Ordering.eq ↔ a = b := by
  unfold natCmp
  split_ifs <;> simp <;> omega

theorem optCmp_ne_gt_iff (x y : Option Nat) :
    optCmp x y ≠ Ordering.gt ↔ (x = none ∨ ∃ a b, x = some a ∧ y = some b ∧ a ≤ b) := by
  cases x <;> cases y <;> simp [optCmp, natCmp_ne_gt_iff]

/-! ## Announce loop (`src/announce.rs`) -/

/-- Observable network effects of handling one discovery datagram. -/
inductive Effect
  | availability : List Nat → Effect
  | metadataReply : FileMetadata → Effect
deriving DecidableEq, Repr

/-- Whether an effect is an availability reply. -/
def Effect.isAvailability : Effect → Bool
  | availability _ => true
  | metadataReply _ => false

/-- announce.rs:43: the comparator sorting `(block_id, downloader_count)` by the count. -/
def blocks_cmp (a b : Nat × Nat) : Ordering := natCmp a.snd b.snd

/-- Body of the `for file in matching_files` loop (announce.rs:30-53) for one matching
file.  `flag = Some 1`: write the serialized metadata over TCP (modelled as an effect;
connect failure is swallowed by the source).  `flag = Some 0`: sort `blocks` in place by
downloader count, strip the counts, and send the block-id list unless it is empty.  Any
other flag does nothing.  Returns the effects and the file as left behind. -/
def serve_file (flag : Option Nat) (f : File) : List Effect × File :=
  if flag = some 1 then ([Effect.metadataReply f.metadata], f)
  else if flag = some 0 then
    let sorted := stableSort (cmpLE blocks_cmp) f.blocks
    let block_list := sorted.map Prod.fst
    (if 0 < block_list.length then [Effect.availability block_list] else [],
     { f with blocks := sorted })
  else ([], f)

/-- One iteration of the announce loop (announce.rs:19-54) on a received datagram.
`data.pop()` splits off the trailing flag byte; the remaining bytes are the queried hash.
`matching_files.size_hint().1` on a `Filter` iterator is the upper bound of the
*underlying* iterator, i.e. `Some(files.len())`, so announce.rs:28 compares
`Some(files.len()) > Some(1)` and the `exit!(1)` fires whenever the catalog holds more
than one file, matching or not; this is embedded faithfully as the `1 < files.length`
test.  Otherwise every matching file is served in catalog order. -/
def announce_step (files : List File) (datagram : List Nat) :
    Except Nat (List Effect × List File) :=
  let data := datagram.dropLast
  let flag := datagram.getLast?
  if 1 < files.length then Except.error 1
  else
    let served := files.map (fun f =>
      if f.metadata.hash.fst = data then serve_file flag f else ([], f))
    Except.ok ((served.map Prod.fst).flatten, served.map Prod.snd)

theorem blocksLE_iff (a b : Nat × Nat) : cmpLE blocks_cmp a b = true ↔ a.snd ≤ b.snd := by
  simp [cmpLE, blocks_cmp, natCmp_ne_gt_iff]

/-- C4, amended: in a single-entry catalog whose entry matches the queried hash, a
flag-1 query produces only the TCP metadata write and no availability reply (the two
branches are exclusive in announce.rs:31-52), while a flag-0 query produces the
availability reply: the blocks sorted stably by ascending `in_flight_serve_count`
(counts stripped), suppressed exactly when the block list is empty.  (With more than one
catalog entry the loop aborts before serving; see the C7 results.) -/
theorem C4_amended (f : File) (h : List Nat) (hmatch : f.metadata.hash.fst = h) :
    announce_step [f] (h ++ [1]) = Except.ok ([Effect.metadataReply f.metadata], [f]) ∧
    ∃ sorted : List (Nat × Nat),
      announce_step [f] (h ++ [0]) =
        Except.ok ((if 0 < sorted.length then [Effect.availability (sorted.map Prod.fst)]
          else []), [{ f with blocks := sorted }]) ∧
      sorted.Perm f.blocks ∧ sorted.Pairwise (fun a b => a.snd ≤ b.snd) := by
  have htot : ∀ a b : Nat × Nat,
      cmpLE blocks_cmp a b = true ∨ cmpLE blocks_cmp b a = true := by
    intro a b
    rcases Nat.le_total a.snd b.snd with h' | h'
    · exact Or.inl ((blocksLE_iff a b).mpr h')
    · exact Or.inr ((blocksLE_iff b a).mpr h')
  have htrans : ∀ a b c : Nat × Nat, cmpLE blocks_cmp a b = true →
      cmpLE blocks_cmp b c = true → cmpLE blocks_cmp a c = true := by
    intro a b c hab hbc
    exact (blocksLE_iff a c).mpr
      (Nat.le_trans ((blocksLE_iff a b).mp hab) ((blocksLE_iff b c).mp hbc))
  constructor
  · simp [announce_step, serve_file, hmatch, List.dropLast_concat, List.getLast?_concat]
  · refine ⟨stableSort (cmpLE blocks_cmp) f.blocks, ?_, stableSort_perm _ _, ?_⟩
    · simp only [announce_step, List.dropLast_concat, List.getLast?_concat]
      simp [serve_file, hmatch, List.length_map]
    · exact (pairwise_stableSort _ htot htrans f.blocks).imp
        (fun hab => (blocksLE_iff _ _).mp hab)

/-- C4, witness: the amended statement instantiated at a catalog holding one file with
blocks `[(0,2), (1,1), (2,0)]` and hash `[9]`. -/
theorem C4_witness :
    announce_step [⟨⟨([9], [[7]]), 4⟩, [(0, 2), (1, 1), (2, 0)]⟩] ([9] ++ [1]) =
      Except.ok ([Effect.metadataReply ⟨([9], [[7]]), 4⟩],
        [⟨⟨([9], [[7]]), 4⟩, [(0, 2), (1, 1), (2, 0)]⟩]) ∧
    ∃ sorted : List (Nat × Nat),
      announce_step [⟨⟨([9], [[7]]), 4⟩, [(0, 2), (1, 1), (2, 0)]⟩] ([9] ++ [0]) =
        Except.ok ((if 0 < sorted.length then [Effect.availability (sorted.map Prod.fst)]
          else []), [⟨⟨([9], [[7]]), 4⟩, sorted⟩]) ∧
      sorted.Perm [(0, 2), (1, 1), (2, 0)] ∧
      sorted.Pairwise (fun a b => a.snd ≤ b.snd) :=
  C4_amended ⟨⟨([9], [[7]]), 4⟩, [(0, 2), (1, 1), (2, 0)]⟩ [9] rfl

/-- C4, counterexample: a flag-1 query to a single-entry catalog with a matching entry and
a nonempty block list produces exactly one effect, the metadata write — no availability
reply is sent, refuting the claim that a flag-1 query *additionally* gets the block list. -/
theorem C4_counterexample :
    announce_step [⟨⟨([9], [[7]]), 4⟩, [(0, 0)]⟩] ([9] ++ [1]) =
      Except.ok ([Effect.metadataReply ⟨([9], [[7]]), 4⟩], [⟨⟨([9], [[7]]), 4⟩, [(0, 0)]⟩]) ∧
    Effect.isAvailability (Effect.metadataReply ⟨([9], [[7]]), 4⟩) = false :=
  ⟨rfl, rfl⟩

/-- C7, evaluation at the failing input: with two catalog entries of distinct hashes and a
query matching exactly the first, the loop aborts with exit code 1 (the `size_hint` upper
bound is the catalog size, not the match count), although only one entry matches; with a
one-entry catalog and a non-matching query it correctly sends nothing. -/
theorem C7_evaluation :
    announce_step [⟨⟨([1], [[5]]), 2⟩, [(0, 0)]⟩, ⟨⟨([2], [[6]]), 2⟩, [(0, 0)]⟩]
        ([1] ++ [0]) = Except.error 1 ∧
    (⟨⟨([1], [[5]]), 2⟩, [(0, 0)]⟩ : File).metadata.hash.fst = [1] ∧
    (⟨⟨([2], [[6]]), 2⟩, [(0, 0)]⟩ : File).metadata.hash.fst ≠ [1] ∧
    announce_step [⟨⟨([2], [[6]]), 2⟩, [(0, 0)]⟩] ([1] ++ [0]) =
      Except.ok ([], [⟨⟨([2], [[6]]), 2⟩, [(0, 0)]⟩]) :=
  ⟨rfl, rfl, by decide, rfl⟩

/-! ## Requester (`src/request.rs`) — block scheduling -/

/-- request.rs:55-64: the availability comparator on `(block_id, source_count)` pairs:
two unavailable blocks are equal, an unavailable block is greater than an available one,
two available blocks compare by source count. -/
def avail_cmp (a b : Nat × Nat) : Ordering :=
  if a.snd = 0 ∧ b.snd = 0 then Ordering.eq
  else if a.snd = 0 then Ordering.gt
  else if b.snd = 0 then Ordering.lt
  else natCmp a.snd b.snd

/-- request.rs:53 `sources.into_iter().enumerate().map(|(id, block)| (id, block.len()))`,
with the enumeration counter explicit. -/
def enum_lengths (i : Nat) : List (List Nat) → List (Nat × Nat)
  | [] => []
  | block :: rest => (i, block.length) :: enum_lengths (i + 1) rest

/-- request.rs:52-68 `sort_by_block_availability`: pair each block id with its source
count, sort stably by `avail_cmp`, strip the counts. -/
def sort_by_block_availability (sources : List (List Nat)) : List Nat :=
  (stableSort (cmpLE avail_cmp) (enum_lengths 0 sources)).map Prod.fst

theorem availLE_iff (a b : Nat × Nat) : cmpLE avail_cmp a b = true ↔
    (b.snd = 0 ∨ (a.snd ≠ 0 ∧ a.snd ≤ b.snd)) := by
  simp only [cmpLE, avail_cmp, decide_eq_true_eq]
  split_ifs with h1 h2 h3 <;> simp [natCmp_ne_gt_iff] <;> omega

theorem mem_enum_lengths : ∀ (l : List (List Nat)) (i : Nat) (x : Nat × Nat),
    x ∈ enum_lengths i l → i ≤ x.fst ∧ x.snd = (l.getD (x.fst - i) []).length := by
  intro l
  induction l with
  | nil => intro i x hx; simp [enum_lengths] at hx
  | cons b rest ih =>
    intro i x hx
    rcases List.mem_cons.mp hx with hx1 | hx2
    · subst hx1
      simp
    · obtain ⟨hle, hcount⟩ := ih (i + 1) x hx2
      refine ⟨by omega, ?_⟩
      have hstep : x.fst - i = (x.fst - (i + 1)) + 1 := by omega
      rw [hstep, List.getD_cons_succ]
      exact hcount

/-- C5: the scheduler's output places every block having at least one source before every
block with zero sources, and among blocks with a source the source counts are
non-decreasing; on source counts `3, 2, 1` for blocks `0, 1, 2` the order is `2, 1, 0`. -/
theorem C5_rarity_order :
    (∀ sources : List (List Nat),
      (sort_by_block_availability sources).Pairwise (fun i j =>
        ((sources.getD i []).length = 0 → (sources.getD j []).length = 0) ∧
        ((sources.getD i []).length ≠ 0 → (sources.getD j []).length ≠ 0 →
          (sources.getD i []).length ≤ (sources.getD j []).length))) ∧
    sort_by_block_availability [[10, 11, 12], [10, 11], [10]] = [2, 1, 0] := by
  constructor
  · intro sources
    have htot : ∀ a b : Nat × Nat,
        cmpLE avail_cmp a b = true ∨ cmpLE avail_cmp b a = true := by
      intro a b
      rw [availLE_iff, availLE_iff]
      omega
    have htrans : ∀ a b c : Nat × Nat, cmpLE avail_cmp a b = true →
        cmpLE avail_cmp b c = true → cmpLE avail_cmp a c = true := by
      intro a b c hab hbc
      rw [availLE_iff] at hab hbc ⊢
      omega
    have hpw := pairwise_stableSort (cmpLE avail_cmp) htot htrans (enum_lengths 0 sources)
    have hmem : ∀ x ∈ stableSort (cmpLE avail_cmp) (enum_lengths 0 sources),
        x.snd = (sources.getD x.fst []).length := by
      intro x hx
      have hx' := (stableSort_perm (cmpLE avail_cmp) (enum_lengths 0 sources)).mem_iff.mp hx
      have := mem_enum_lengths sources 0 x hx'
      simpa using this.2
    rw [sort_by_block_availability, List.pairwise_map]
    refine hpw.imp_of_mem ?_
    intro a b ha hb hab
    rw [availLE_iff] at hab
    rw [← hmem a ha, ← hmem b hb]
    omega
  · decide

/-! ## Requester — aggregating availability replies (`convert_block_sources`) -/

/-- request.rs:38-46: the source comparator on `(rank, ip)` pairs: compare the ranks; on a
tie compare the peers' ping results under the derived `Option<Duration>` order (`optCmp`,
where `None` — unknown latency — is least). -/
def rank_ping_cmp (ping : Nat → Option Nat) (a b : Nat × Nat) : Ordering :=
  let comparison := natCmp a.fst b.fst
  if comparison = Ordering.eq then optCmp (ping a.snd) (ping b.snd) else comparison

/-- request.rs:34 `block_sources[*block].push((rank, source))`: Rust indexing panics when
`block` is out of bounds, modelled as `none`. -/
def push_block_source (bss : List (List (Nat × Nat))) (block : Nat) (entry : Nat × Nat) :
    Option (List (List (Nat × Nat))) :=
  if h : block < bss.length then some (bss.set block (bss.get ⟨block, h⟩ ++ [entry]))
  else none

/-- request.rs:33-35: enumerate one peer's announced block list, pushing `(rank, ip)` into
each announced block's source list, with the enumeration rank explicit. -/
def insert_peer_blocks (ip : Nat) :
    Option (List (List (Nat × Nat))) → Nat → List Nat → Option (List (List (Nat × Nat)))
  | acc, _, [] => acc
  | acc, rank, block :: rest =>
    insert_peer_blocks ip (acc.bind (fun bss => push_block_source bss block (rank, ip)))
      (rank + 1) rest

/-- request.rs:28-36: start from `block_count` empty lists and insert every peer's
announced blocks.  `HashMap` iteration order is modelled by the list order; the results
below hold for every order. -/
def build_block_sources (block_count : Nat) (sources : List (Nat × List Nat)) :
    Option (List (List (Nat × Nat))) :=
  sources.foldl (fun acc p => insert_peer_blocks p.fst acc 0 p.snd)
    (some (List.replicate block_count []))

/-- request.rs:38-46: each block's `(rank, ip)` list sorted by `rank_ping_cmp`. -/
def sorted_block_sources (filesize : Nat) (ping : Nat → Option Nat)
    (sources : List (Nat × List Nat)) : Option (List (List (Nat × Nat))) :=
  (build_block_sources (filesize / calculate_block_size filesize) sources).map
    (List.map (stableSort (cmpLE (rank_ping_cmp ping))))

/-- request.rs:27-50 `convert_block_sources`: the sorted per-block `(rank, ip)` lists with
the ranks stripped. -/
def convert_block_sources (filesize : Nat) (ping : Nat → Option Nat)
    (sources : List (Nat × List Nat)) : Option (List (List Nat)) :=
  (sorted_block_sources filesize ping sources).map (List.map (List.map Prod.snd))

theorem rankPingLE_iff (ping : Nat → Option Nat) (a b : Nat × Nat) :
    cmpLE (rank_ping_cmp ping) a b = true ↔
      (a.fst < b.fst ∨ (a.fst = b.fst ∧ optCmp (ping a.snd) (ping b.snd) ≠ Ordering.gt)) := by
  simp only [cmpLE, rank_ping_cmp, decide_eq_true_eq]
  by_cases hc : natCmp a.fst b.fst = Ordering.eq
  · have heq := (natCmp_eq_eq_iff a.fst b.fst).mp hc
    rw [if_pos hc]
    simp [heq]
  · have hne := (natCmp_eq_eq_iff a.fst b.fst).not.mp hc
    simp only [if_neg hc]
    constructor
    · intro hgt
      exact Or.inl (by have := (natCmp_ne_gt_iff a.fst b.fst).mp hgt; omega)
    · intro hor
      rcases hor with hlt | ⟨heq, _⟩
      · exact (natCmp_ne_gt_iff a.fst b.fst).mpr (by omega)
      · exact absurd heq hne

theorem optCmp_ne_gt_total (x y : Option Nat) :
    optCmp x y ≠ Ordering.gt ∨ optCmp y x ≠ Ordering.gt := by
  rw [optCmp_ne_gt_iff, optCmp_ne_gt_iff]
  cases x <;> cases y <;> (simp; try omega)

theorem optCmp_ne_gt_trans (x y z : Option Nat) (hxy : optCmp x y ≠ Ordering.gt)
    (hyz : optCmp y z ≠ Ordering.gt) : optCmp x z ≠ Ordering.gt := by
  rw [optCmp_ne_gt_iff] at hxy hyz ⊢
  cases x <;> cases y <;> cases z <;> (simp_all; try omega)

theorem rankPingLE_total (ping : Nat → Option Nat) (a b : Nat × Nat) :
    cmpLE (rank_ping_cmp ping) a b = true ∨ cmpLE (rank_ping_cmp ping) b a = true := by
  rw [rankPingLE_iff, rankPingLE_iff]
  rcases Nat.lt_trichotomy a.fst b.fst with h | h | h
  · exact Or.inl (Or.inl h)
  · rcases optCmp_ne_gt_total (ping a.snd) (ping b.snd) with h' | h'
    · exact Or.inl (Or.inr ⟨h, h'⟩)
    · exact Or.inr (Or.inr ⟨h.symm, h'⟩)
  · exact Or.inr (Or.inl h)

theorem rankPingLE_trans (ping : Nat → Option Nat) (a b c : Nat × Nat)
    (hab : cmpLE (rank_ping_cmp ping) a b = true)
    (hbc : cmpLE (rank_ping_cmp ping) b c = true) :
    cmpLE (rank_ping_cmp ping) a c = true := by
  rw [rankPingLE_iff] at hab hbc ⊢
  rcases hab with h1 | ⟨h1, h1p⟩ <;> rcases hbc with h2 | ⟨h2, h2p⟩
  · exact Or.inl (by omega)
  · exact Or.inl (by omega)
  · exact Or.inl (by omega)
  · exact Or.inr ⟨by omega,
      optCmp_ne_gt_trans (ping a.snd) (ping b.snd) (ping c.snd) h1p h2p⟩

/-- C6, amended: in `convert_block_sources` each block's `(rank, ip)` source list does end
up sorted by ascending rank, but rank ties are broken by the derived order on
`Option<Duration>`, in which an unknown latency (`None`) sorts *before* — not after —
every finite latency. -/
theorem C6_amended (filesize : Nat) (ping : Nat → Option Nat)
    (sources : List (Nat × List Nat)) (ls : List (List (Nat × Nat)))
    (hls : sorted_block_sources filesize ping sources = some ls) :
    (∀ bl ∈ ls, bl.Pairwise (fun a b => a.fst < b.fst ∨ (a.fst = b.fst ∧
      (ping a.snd = none ∨
        ∃ da db, ping a.snd = some da ∧ ping b.snd = some db ∧ da ≤ db)))) ∧
    convert_block_sources filesize ping sources = some (ls.map (List.map Prod.snd)) := by
  constructor
  · intro bl hbl
    rw [sorted_block_sources] at hls
    rcases Option.map_eq_some'.mp hls with ⟨bss, _, hmap⟩
    subst hmap
    rcases List.mem_map.mp hbl with ⟨bl0, _, hbl0⟩
    subst hbl0
    refine (pairwise_stableSort (cmpLE (rank_ping_cmp ping)) (rankPingLE_total ping)
      (rankPingLE_trans ping) bl0).imp ?_
    intro a b hab
    rw [rankPingLE_iff] at hab
    rcases hab with h | ⟨h, hopt⟩
    · exact Or.inl h
    · exact Or.inr ⟨h, (optCmp_ne_gt_iff _ _).mp hopt⟩
  · rw [convert_block_sources, hls, Option.map_some']

/-- C6, witness: the amended statement instantiated at a one-block file with two peers of
equal rank, peer 0 with unknown ping and peer 1 with ping 5; the sorted source list is
`[(0, 0), (0, 1)]` — the unknown-latency peer first. -/
theorem C6_witness :
    (∀ bl ∈ [[((0 : Nat), (0 : Nat)), (0, 1)]], bl.Pairwise (fun a b =>
      a.fst < b.fst ∨ (a.fst = b.fst ∧
        ((fun ip => if ip = 0 then none else some 5) a.snd = none ∨
          ∃ da db, (fun ip => if ip = 0 then none else some 5) a.snd = some da ∧
            (fun ip : Nat => if ip = 0 then (none : Option Nat) else some 5) b.snd =
              some db ∧ da ≤ db)))) ∧
    convert_block_sources 1 (fun ip => if ip = 0 then none else some 5)
      [(0, [0]), (1, [0])] =
        some ([[((0 : Nat), (0 : Nat)), (0, 1)]].map (List.map Prod.snd)) :=
  C6_amended 1 (fun ip => if ip = 0 then none else some 5) [(0, [0]), (1, [0])]
    [[(0, 0), (0, 1)]] rfl

/-- C6, counterexample: with two peers announcing block 0 of a one-block file at equal
rank, peer 0 with unknown ping and peer 1 with ping 5, the block's source list comes out
`[0, 1]` — the unknown-latency peer *first* — not `[1, 0]` as the claim's
"unknown sorts after every finite latency" requires (Rust derives `None < Some`). -/
theorem C6_counterexample :
    convert_block_sources 1 (fun ip => if ip = 0 then none else some 5)
        [(0, [0]), (1, [0])] = some [[0, 1]] ∧
    (if (0 : Nat) = 0 then (none : Option Nat) else some 5) = none ∧
    (if (1 : Nat) = 0 then (none : Option Nat) else some 5) = some 5 ∧
    some [[(0 : Nat), 1]] ≠ some [[1, 0]] := by
  refine ⟨rfl, rfl, rfl, by decide⟩

/-- All source lists stay well formed while inserting one peer's blocks: if every block id
is below the list count, insertion succeeds and preserves the count. -/
theorem insert_peer_blocks_ok (ip : Nat) (count : Nat) :
    ∀ (blocks : List Nat) (rank : Nat) (bss : List (List (Nat × Nat))),
      bss.length = count → (∀ b ∈ blocks, b < count) →
      ∃ bss2, insert_peer_blocks ip (some bss) rank blocks = some bss2 ∧
        bss2.length = count := by
  intro blocks
  induction blocks with
  | nil => intro rank bss hlen _; exact ⟨bss, rfl, hlen⟩
  | cons b rest ih =>
    intro rank bss hlen hb
    have hblt : b < bss.length := by
      rw [hlen]; exact hb b (List.mem_cons_self b rest)
    have hpush : push_block_source bss b (rank, ip) =
        some (bss.set b (bss.get ⟨b, hblt⟩ ++ [(rank, ip)])) := by
      rw [push_block_source, dif_pos hblt]
    have hlen2 : (bss.set b (bss.get ⟨b, hblt⟩ ++ [(rank, ip)])).length = count := by
      rw [List.length_set]; exact hlen
    have hrest : ∀ x ∈ rest, x < count := fun x hx => hb x (List.mem_cons_of_mem b hx)
    obtain ⟨bss2, hrec, hlen3⟩ :=
      ih (rank + 1) (bss.set b (bss.get ⟨b, hblt⟩ ++ [(rank, ip)])) hlen2 hrest
    refine ⟨bss2, ?_, hlen3⟩
    show insert_peer_blocks ip
      ((some bss).bind (fun bss => push_block_source bss b (rank, ip))) (rank + 1) rest =
      some bss2
    rw [show (some bss).bind (fun bss => push_block_source bss b (rank, ip)) =
      push_block_source bss b (rank, ip) from rfl, hpush]
    exact hrec

/-- C10: `convert_block_sources` is panic free when every announced block id is below
`filesize / calculate_block_size filesize`, and a single availability reply announcing an
out-of-range block id (block 1 of a one-block file) makes the indexing
`block_sources[*block]` fail. -/
theorem C10_safety :
    (∀ (filesize : Nat) (ping : Nat → Option Nat) (sources : List (Nat × List Nat)),
      (∀ p ∈ sources, ∀ b ∈ p.snd, b < filesize / calculate_block_size filesize) →
      (convert_block_sources filesize ping sources).isSome = true) ∧
    convert_block_sources 1 (fun _ => none) [(5, [1])] = none := by
  constructor
  · intro filesize ping sources hbound
    set count := filesize / calculate_block_size filesize with hcount
    have hbuild : ∀ (srcs : List (Nat × List Nat)) (bss : List (List (Nat × Nat))),
        bss.length = count → (∀ p ∈ srcs, ∀ b ∈ p.snd, b < count) →
        ∃ bss2, srcs.foldl (fun acc p => insert_peer_blocks p.fst acc 0 p.snd)
          (some bss) = some bss2 ∧ bss2.length = count := by
      intro srcs
      induction srcs with
      | nil => intro bss hlen _; exact ⟨bss, rfl, hlen⟩
      | cons p rest ih =>
        intro bss hlen hb
        obtain ⟨bss1, hins, hlen1⟩ := insert_peer_blocks_ok p.fst count p.snd 0 bss hlen
          (fun b hbp => hb p (List.mem_cons_self p rest) b hbp)
        obtain ⟨bss2, hfold, hlen2⟩ := ih bss1 hlen1
          (fun q hq b hbq => hb q (List.mem_cons_of_mem p hq) b hbq)
        refine ⟨bss2, ?_, hlen2⟩
        rw [List.foldl_cons, hins]
        exact hfold
    obtain ⟨bss2, hfold, _⟩ := hbuild sources (List.replicate count [])
      (List.length_replicate count []) hbound
    rw [convert_block_sources, sorted_block_sources, build_block_sources, ← hcount, hfold]
    rfl
  · decide

/-- C10, witness: the panic-freedom half applied to a 4096-byte file (1024 blocks) and two
peers announcing in-range blocks. -/
theorem C10_witness :
    (convert_block_sources 4096 (fun _ => none) [(0, [0, 1]), (1, [2])]).isSome = true :=
  C10_safety.1 4096 (fun _ => none) [(0, [0, 1]), (1, [2])] (by decide)

/-! ## Requester — block download (`FileHandle::download`) and metadata check -/

/-- Outcome of the per-block source loop. -/
inductive FetchOutcome
  | fatal : Nat → FetchOutcome
  | written : Nat → List Nat → FetchOutcome
  | exhausted : FetchOutcome
deriving DecidableEq, Repr

/-- request.rs:193-217: the per-block source loop of `FileHandle::download`.  `net ip`
gives the bytes read to EOF from that peer (`none` = connect failure).  A connect failure
or a zero-length reply moves on to the next source; a nonempty reply whose SHA-256 differs
from the expected block hash exits the process with code 1 (request.rs:208
`exit!(1, "HASH MISMATCH")`); a matching reply is written at the block's offset and the
loop breaks. -/
def download_block (expected : List Nat) (net : Nat → Option (List Nat)) :
    List Nat → FetchOutcome
  | [] => FetchOutcome.exhausted
  | source :: rest =>
    match net source with
    | some bytes =>
      if 0 < bytes.length then
        if sha256 bytes ≠ expected then FetchOutcome.fatal 1
        else FetchOutcome.written source bytes
      else download_block expected net rest
    | none => download_block expected net rest

/-- C8, amended: a downloaded block whose bytes hash to a value different from the
expected block hash terminates the process with exit code 1 — it is *not* skipped; only
connect failures and zero-length replies move on to the next source in the block's
source list. -/
theorem C8_amended (expected : List Nat) (net : Nat → Option (List Nat)) (source : Nat)
    (rest : List Nat) :
    (∀ bytes, net source = some bytes → 0 < bytes.length → sha256 bytes ≠ expected →
      download_block expected net (source :: rest) = FetchOutcome.fatal 1) ∧
    (net source = none →
      download_block expected net (source :: rest) = download_block expected net rest) ∧
    (net source = some [] →
      download_block expected net (source :: rest) = download_block expected net rest) := by
  refine ⟨fun bytes hnet hlen hhash => ?_, fun hnet => ?_, fun hnet => ?_⟩
  · simp only [download_block, hnet, if_pos hlen, if_pos hhash]
  · simp only [download_block, hnet]
  · simp [download_block, hnet]

/-- C8, witness: the amended statement applied to a peer serving byte `0x01` where the
block hash is that of byte `0x00`. -/
theorem C8_witness :
    download_block (sha256 [0]) (fun _ => some [1]) [7] = FetchOutcome.fatal 1 :=
  (C8_amended (sha256 [0]) (fun _ => some [1]) 7 []).1 [1] rfl (by decide) (by decide)

/-- C8, counterexample: source 7 serves wrong bytes (`0x01` instead of `0x00`), source 8
still holds the correct block; the claim predicts a skip to source 8 with no process
termination, but the loop exits the process with code 1. -/
theorem C8_counterexample :
    download_block (sha256 [0]) (fun ip => if ip = 7 then some [1] else some [0]) [7, 8] =
      FetchOutcome.fatal 1 ∧
    (fun ip => if ip = 7 then some [1] else some [0]) 8 = some [0] ∧
    sha256 [0] = sha256 [0] ∧
    FetchOutcome.fatal 1 ≠ FetchOutcome.written 8 [0] := by
  refine ⟨by decide, rfl, rfl, by decide⟩

/-- request.rs:94-98: the requester's TCP metadata thread deserializes the reply and
compares its whole-file hash with the requested one; a mismatch runs
`exit!(2, "Hash mismatch! (remote vs local)")`, otherwise the metadata is handed on. -/
def from_metadata_check (requested : List Nat) (metadata : FileMetadata) :
    Except Nat FileMetadata :=
  if metadata.hash.fst ≠ requested then Except.error 2 else Except.ok metadata

/-- C9: a metadata reply whose whole-file hash differs from the requested hash terminates
the request with error kind 2 (process exit code 2). -/
theorem C9_metadata_mismatch (requested : List Nat) (metadata : FileMetadata)
    (h : metadata.hash.fst ≠ requested) :
    from_metadata_check requested metadata = Except.error 2 := by
  simp [from_metadata_check, h]

/-- C9, witness: a reply carrying whole-file hash `[2]` against requested hash `[1]`. -/
theorem C9_witness : from_metadata_check [1] ⟨([2], []), 0⟩ = Except.error 2 :=
  C9_metadata_mismatch [1] ⟨([2], []), 0⟩ (by decide)

end DDP
